import Mathlib

/-!
Verification of the filtering–deduplication–aggregation core of
`fetch_and_build.py` (GFB-3): a batch pipeline that downloads Chess960 bot
games, keeps eligible rated games, deduplicates by (FEN, full mainline SAN),
trims each kept game to 24 plies, groups them by FEN, and emits only groups
with at least 3 games.

The shallow embedding below translates the source directly:
  * `hdGet`/`hdSet`/`Header` model a parsed game's header dictionary
    (python-chess `Headers`: string keys to string values, insertion order,
    unique keys; `hd.get(k, d)` is `hdGetD`).
  * `pyInt` models Python's `int(str)` (base 10): surrounding whitespace,
    optional sign, digits with single interior underscores; `none` models a
    raised `ValueError`.
  * `PgnLib` abstracts the external python-chess collaborators the core
    calls: `fenOk f` models whether `chess.Board(f)` succeeds, and
    `san f ms` models `Board(f).variation_san(ms)` — `.error` models the
    exception raised for an unparseable FEN or an illegal move,
    `.ok` the rendered notation of the full mainline.
  * `Game` is a parsed game: its header mapping and its mainline moves
    (the move type `M` is abstract; the core never inspects a move).
All pipeline functions (`is_good_game`, `trim_game`, `processGame`,
`processList`, `runBots`, `finalize`, `mainPipeline`) are translated from
the source; `Except.error` models an uncaught Python exception.
-/

namespace GFB

/-- Header mapping of a parsed game: insertion-ordered association list with
string keys and values (python-chess `Headers` behaves as a dict). -/
abbrev Header := List (String × String)

/-- `hd.get(k)`: value at the first binding of `k`, if any. -/
def hdGet : Header → String → Option String
  | [], _ => none
  | (k', v) :: t, k => if k' = k then some v else hdGet t k

/-- `hd.get(k, d)`: lookup with a default. -/
def hdGetD (h : Header) (k d : String) : String := (hdGet h k).getD d

/-- `hd[k] = v` on a dict: overwrite the binding of `k` in place if present,
else append a new binding at the end (python dict update semantics). -/
def hdSet : Header → String → String → Header
  | [], k, v => [(k, v)]
  | (k', v') :: t, k, v => if k' = k then (k, v) :: t else (k', v') :: hdSet t k v

/-- A parsed game: headers plus the mainline moves.  The move type `M` is
abstract — the pipeline core never inspects an individual move, it only
counts, truncates and hands them to the external notation renderer. -/
structure Game (M : Type) where
  headers : Header
  moves : List M
deriving DecidableEq

/-- `MIN_RATING = 2375` (an `Int` because Python's `int()` is signed). -/
def MIN_RATING : Int := 2375

/-- `MAX_PLIES = 24`. -/
def MAX_PLIES : Nat := 24

/-- `MIN_FEN_GAMES = 3`. -/
def MIN_FEN_GAMES : Nat := 3

/-- The `SPEEDS` allow-list, verbatim from the source. -/
def SPEEDS : List String :=
  ["blitz", "rapid", "classical", "bullet", "ultraBullet", "correspondence"]

/-- Model of Python's `str.lower()` (ASCII characters; every header value
the pipeline compares is ASCII): lower-case each character. -/
def pyLower (s : String) : String := ⟨s.data.map Char.toLower⟩

/-- Whitespace stripped by Python's `int(str)` (ASCII part). -/
def pyWS (c : Char) : Bool :=
  c = ' ' ∨ c = '\t' ∨ c = '\n' ∨ c = '\r' ∨ c = '\x0b' ∨ c = '\x0c'

/-- Numeric value of a list of decimal digit characters. -/
def digitsVal (cs : List Char) : Nat :=
  cs.foldl (fun a c => 10 * a + (c.toNat - 48)) 0

/-- After the first digit of a Python integer literal: a sequence of digits
in which single underscores may separate digits (`1_000`), but no leading,
trailing or doubled underscore.  Returns the digits with underscores
removed. -/
def pyDigitsTail : List Char → Option (List Char)
  | [] => some []
  | '_' :: c :: cs =>
      if c.isDigit then (pyDigitsTail cs).map (fun l => c :: l) else none
  | '_' :: [] => none
  | c :: cs =>
      if c.isDigit then (pyDigitsTail cs).map (fun l => c :: l) else none

/-- The digit part of a Python integer literal: at least one digit, then
`pyDigitsTail`. -/
def pyIntCore : List Char → Option Nat
  | [] => none
  | c :: cs =>
      if c.isDigit then (pyDigitsTail cs).map (fun l => digitsVal (c :: l))
      else none

/-- Model of Python's `int(s)` in base 10: strip surrounding whitespace,
optional single sign, digit part.  `none` models a raised `ValueError`. -/
def pyInt (s : String) : Option Int :=
  let cs := ((s.data.dropWhile pyWS).reverse.dropWhile pyWS).reverse
  match cs with
  | '+' :: rest => (pyIntCore rest).map Int.ofNat
  | '-' :: rest => (pyIntCore rest).map (fun n => -(Int.ofNat n))
  | _ => (pyIntCore cs).map Int.ofNat

/-- `is_good_game` from the source, translated clause for clause in order:
Variant, SetUp/FEN, Speed, the `try int(...)` rating block, Result.
Python details preserved: `hd.get("SetUp")` with no default is `None` when
absent (so only exactly `"1"` passes), `not hd.get("FEN")` is true for a
missing or empty FEN, the rating headers default to `"0"`, and a missing
Result (`None`) is not in the result tuple. -/
def is_good_game {M : Type} (g : Game M) : Bool :=
  if ¬ pyLower (hdGetD g.headers "Variant" "") = "chess960" then false
  else if ¬ hdGet g.headers "SetUp" = some "1" ∨ hdGetD g.headers "FEN" "" = "" then false
  else if ¬ pyLower (hdGetD g.headers "Speed" "") ∈ SPEEDS.map pyLower then false
  else
    match pyInt (hdGetD g.headers "WhiteElo" "0"), pyInt (hdGetD g.headers "BlackElo" "0") with
    | some wr, some br =>
        if wr < MIN_RATING ∨ br < MIN_RATING then false
        else if ¬ hdGet g.headers "Result" ∈ [some "1-0", some "0-1", some "1/2-1/2"] then false
        else true
    | _, _ => false

/-- The external python-chess operations the core calls, abstracted:
`fenOk f` says whether `chess.Board(f)` succeeds on the FEN string `f`;
`san f ms` models `Board(f).variation_san(ms)` — rendering the full move
list `ms` from starting position `f`, raising (`.error`) on an unparseable
FEN or an illegal move. -/
structure PgnLib (M : Type) where
  fenOk : String → Bool
  san : String → List M → Except String String

/-- Default headers of a fresh `chess.pgn.Game()` (the Seven Tag Roster),
onto which `trim_game` copies the original game's headers. -/
def defaultHeaders : Header :=
  [("Event", "?"), ("Site", "?"), ("Date", "????.??.??"), ("Round", "?"),
   ("White", "?"), ("Black", "?"), ("Result", "*")]

/-- The header-copy loop of `trim_game`:
`for k, v in game.headers.items(): new_game.headers[k] = v`. -/
def copyHeaders (init : Header) (L : Header) : Header :=
  L.foldl (fun acc p => hdSet acc p.1 p.2) init

/-- `trim_game` from the source.  `chess.Board(game.headers["FEN"])` raises
`KeyError` on a missing FEN header and `ValueError` on an unparseable one
(the resulting board is otherwise unused); then a new game is built with all
original headers copied over the defaults, and the first `MAX_PLIES`
mainline moves attached (`node.add_variation` records a move without any
legality check, so no move is ever applied to a board here). -/
def trim_game {M : Type} (lib : PgnLib M) (g : Game M) : Except String (Game M) :=
  match hdGet g.headers "FEN" with
  | none => .error "KeyError: FEN"
  | some fen =>
      if ¬ lib.fenOk fen then .error "ValueError: invalid FEN"
      else .ok { headers := copyHeaders defaultHeaders g.headers,
                 moves := g.moves.take MAX_PLIES }

/-- `fen = g.headers["FEN"]` as read in the main loop (eligibility has
already guaranteed the header is present and non-empty). -/
def fenOf {M : Type} (g : Game M) : String := hdGetD g.headers "FEN" ""

/-- The deduplication key line 112 computes for a game:
`(fen, g.board().variation_san(g.mainline_moves()))` — the FEN header paired
with the rendered notation of the FULL, untrimmed mainline.  `none` when the
rendering collaborator raises. -/
def keyOf {M : Type} (lib : PgnLib M) (g : Game M) : Option (String × String) :=
  match lib.san (fenOf g) g.moves with
  | .ok s => some (fenOf g, s)
  | .error _ => none

/-- `games_by_fen[fen].append(tg)` on the insertion-ordered dict
(`defaultdict(list)`): append to the existing group in place, or append a
new singleton group at the end on first encounter of `fen`. -/
def gbAdd {G : Type} : List (String × List G) → String → G → List (String × List G)
  | [], f, g => [(f, [g])]
  | (f', arr) :: t, f, g =>
      if f' = f then (f', arr ++ [g]) :: t else (f', arr) :: gbAdd t f g

/-- `games_by_fen[f]` read-only: the group stored for `f` (empty if `f` was
never added). -/
def lookupGroup {G : Type} : List (String × List G) → String → List G
  | [], _ => []
  | (f', arr) :: t, f => if f' = f then arr else lookupGroup t f

/-- The mutable state of one pipeline run: the `seen` set of admitted dedup
keys and the `games_by_fen` grouping. -/
structure PState (M : Type) where
  seen : List (String × String)
  gb : List (String × List (Game M))
deriving DecidableEq

/-- `seen = set(); games_by_fen = defaultdict(list)` at the start of `main`. -/
def pipeInit {M : Type} : PState M := ⟨[], []⟩

/-- The per-game body of the main loop (lines 109–117): skip if ineligible;
compute the dedup key (the san rendering may raise — `.error` aborts, it is
not caught per game); skip if the key was already seen; otherwise record the
key, trim, and append to the game's FEN group. -/
def processGame {M : Type} [DecidableEq M] (lib : PgnLib M) (st : PState M) (g : Game M) :
    Except String (PState M) :=
  if ¬ is_good_game g then .ok st
  else
    match lib.san (fenOf g) g.moves with
    | .error e => .error e
    | .ok s =>
        if (fenOf g, s) ∈ st.seen then .ok st
        else
          match trim_game lib g with
          | .error e => .error e
          | .ok tg => .ok ⟨(fenOf g, s) :: st.seen, gbAdd st.gb (fenOf g) tg⟩

/-- One bot's parsed game stream, processed in order; an error anywhere
aborts the run. -/
def processList {M : Type} [DecidableEq M] (lib : PgnLib M) (st : PState M) :
    List (Game M) → Except String (PState M)
  | [] => .ok st
  | g :: gs =>
      match processGame lib st g with
      | .error e => .error e
      | .ok st' => processList lib st' gs

/-- The outer loop over the bot roster.  Each element of `streams` is the
outcome of `export_games` for one bot: `.error` models a retrieval failure,
which is caught (`except Exception`), logged and skipped; `.ok` is the
parsed game stream, whose processing errors are NOT caught and abort the
run. -/
def runBots {M : Type} [DecidableEq M] (lib : PgnLib M) (st : PState M) :
    List (Except String (List (Game M))) → Except String (PState M)
  | [] => .ok st
  | .error _ :: rest => runBots lib st rest
  | .ok gs :: rest =>
      match processList lib st gs with
      | .error e => .error e
      | .ok st' => runBots lib st' rest

/-- Lines 120–123: `final_games = []; for fen, arr in games_by_fen.items():
if len(arr) >= MIN_FEN_GAMES: final_games.extend(arr)`. -/
def finalize {M : Type} (gb : List (String × List (Game M))) : List (Game M) :=
  gb.foldl (fun acc p => if MIN_FEN_GAMES ≤ p.2.length then acc ++ p.2 else acc) []

/-- The whole of `main` up to the final dataset: run every bot stream from
the empty state, then aggregate.  An uncaught exception anywhere (an
`.error` from key rendering or trimming) propagates out of `main`. -/
def mainPipeline {M : Type} [DecidableEq M] (lib : PgnLib M)
    (streams : List (Except String (List (Game M)))) : Except String (List (Game M)) :=
  match runBots lib pipeInit streams with
  | .error e => .error e
  | .ok st => .ok (finalize st.gb)

/-! ### Specification-side definitions (from the spec's words, for the
refinement claims) -/

/-- Modelled from the spec (§4.1 GameValidator): the five eligibility
clauses as stated — Variant case-insensitively `"chess960"`; `SetUp = "1"`
and FEN non-empty; Speed case-insensitively in the allow-list; both ratings
parse as integers `≥ 2375`; Result in the three outcomes.  Absent keys are
treated as empty/zero per the spec's data model (§3). -/
def isEligibleSpec {M : Type} (g : Game M) : Prop :=
  pyLower (hdGetD g.headers "Variant" "") = "chess960" ∧
  hdGetD g.headers "SetUp" "" = "1" ∧
  hdGetD g.headers "FEN" "" ≠ "" ∧
  pyLower (hdGetD g.headers "Speed" "") ∈
    ["blitz", "rapid", "classical", "bullet", "ultrabullet", "correspondence"] ∧
  (∃ w : Int, pyInt (hdGetD g.headers "WhiteElo" "0") = some w ∧ MIN_RATING ≤ w) ∧
  (∃ b : Int, pyInt (hdGetD g.headers "BlackElo" "0") = some b ∧ MIN_RATING ≤ b) ∧
  hdGetD g.headers "Result" "" ∈ ["1-0", "0-1", "1/2-1/2"]

/-- From the spec (§3 FinalDataset): the flattened concatenation of the
surviving groups' game lists — `filter` by the minimum-support threshold,
then concatenate in stored (first-seen) order. -/
def finalizeSpec {M : Type} (gb : List (String × List (Game M))) : List (Game M) :=
  ((gb.filter (fun p => MIN_FEN_GAMES ≤ p.2.length)).map Prod.snd).flatten

/-- A parsed game's header mapping has unique keys (python-chess `Headers`
is a dict; guaranteed by the external parser for every game the pipeline
sees). -/
def WFGame {M : Type} (g : Game M) : Prop := (g.headers.map Prod.fst).Nodup

/-- The games carried by one fetched stream (`[]` for a failed retrieval). -/
def streamGames {M : Type} : Except String (List (Game M)) → List (Game M)
  | .ok gs => gs
  | .error _ => []

/-- All games of all streams are well-formed (§ `WFGame`). -/
def WFStreams {M : Type} (streams : List (Except String (List (Game M)))) : Prop :=
  ∀ s ∈ streams, ∀ g ∈ streamGames s, WFGame g

/-- Internal invariant of the grouping map: keys are unique (it is a dict)
and every stored game's FEN header is its group's key. -/
def GBInv {M : Type} (gb : List (String × List (Game M))) : Prop :=
  (gb.map Prod.fst).Nodup ∧ ∀ p ∈ gb, ∀ g ∈ p.2, hdGet g.headers "FEN" = some p.1

/-! ### Concrete test data (used by the witness theorems) -/

/-- A concrete eligible parsed game with the given FEN header and moves,
headers laid out as python-chess emits them (Seven Tag Roster first). -/
def mkG (fen : String) (ms : List String) : Game String :=
  ⟨[("Event", "?"), ("Site", "?"), ("Date", "????.??.??"), ("Round", "?"),
    ("White", "w"), ("Black", "b"), ("Result", "1-0"), ("Variant", "Chess960"),
    ("SetUp", "1"), ("FEN", fen), ("Speed", "Blitz"),
    ("WhiteElo", "2400"), ("BlackElo", "2500")], ms⟩

/-- A concrete instantiation of the external library in which every FEN
parses and rendering always succeeds (notation modelled as the moves joined
by spaces). -/
def toyLib : PgnLib String := ⟨fun _ => true, fun _ ms => .ok (String.intercalate " " ms)⟩

/-- A concrete instantiation of the external library in which every FEN
parses but every move list is illegal from its position: rendering always
raises.  Models a game whose recorded moves are inconsistent with its
declared FEN. -/
def illLib : PgnLib String := ⟨fun _ => true, fun _ _ => .error "IllegalMoveError"⟩

/-- An eligible game whose mainline `illLib` considers inconsistent with its
FEN. -/
def gIll : Game String := mkG "fX" ["Qz9"]

/-- One bot stream: three eligible games sharing FEN `"f1"` with distinct
lines, and one eligible game with FEN `"f2"`. -/
def c1Streams : List (Except String (List (Game String))) :=
  [.ok [mkG "f1" ["a"], mkG "f1" ["b"], mkG "f1" ["c"], mkG "f2" ["a"]]]

/-- The pipeline state after running `c1Streams` under `toyLib`. -/
def c1St : PState String :=
  ⟨[("f2", "a"), ("f1", "c"), ("f1", "b"), ("f1", "a")],
   [("f1", [mkG "f1" ["a"], mkG "f1" ["b"], mkG "f1" ["c"]]),
    ("f2", [mkG "f2" ["a"]])]⟩

/-- A game with 25 recorded plies. -/
def c2g1 : Game String := mkG "f1" ((List.range 25).map toString)

/-- A game agreeing with `c2g1` on its first 24 plies and diverging at
ply 25. -/
def c2g2 : Game String := mkG "f1" (((List.range 24).map toString) ++ ["x"])

/-- A game with 40 recorded plies. -/
def g40 : Game String := mkG "f4" ((List.range 40).map toString)

/-- The expected trim of `g40`: identical headers, first 24 plies. -/
def tg40 : Game String := mkG "f4" (((List.range 40).map toString).take MAX_PLIES)

/-- A concrete admitted game for the dedup witness. -/
def c3g : Game String := mkG "f1" ["a"]

/-- State after admitting `c3g` from the empty state. -/
def c3st1 : PState String := ⟨[("f1", "a")], [("f1", [c3g])]⟩

/-- Rest-of-run streams for the dedup witness. -/
def c3Streams : List (Except String (List (Game String))) := [.ok [mkG "f1" ["b"]]]

/-- State after also processing `c3Streams` from `c3st1`. -/
def c3st2 : PState String :=
  ⟨[("f1", "b"), ("f1", "a")], [("f1", [c3g, mkG "f1" ["b"]])]⟩

/-- A game that passes every check except that its WhiteElo is the
non-integer string `"unrated"`. -/
def gUnrated : Game String :=
  ⟨[("Event", "?"), ("Site", "?"), ("Date", "????.??.??"), ("Round", "?"),
    ("White", "w"), ("Black", "b"), ("Result", "1-0"), ("Variant", "Chess960"),
    ("SetUp", "1"), ("FEN", "f1"), ("Speed", "Blitz"),
    ("WhiteElo", "unrated"), ("BlackElo", "2500")], ["e4"]⟩

/-! ### Header-mapping lemmas -/

theorem hdGet_append (A B : Header) (k : String) :
    hdGet (A ++ B) k = (hdGet A k).or (hdGet B k) := by
  induction A with
  | nil => simp [hdGet]
  | cons p t ih =>
      obtain ⟨k', v⟩ := p
      by_cases h : k' = k <;> simp [hdGet, h, ih, Option.or]

theorem hdGet_hdSet (h : Header) (k v k' : String) :
    hdGet (hdSet h k v) k' = if k = k' then some v else hdGet h k' := by
  induction h with
  | nil => by_cases hk : k = k' <;> simp [hdSet, hdGet, hk]
  | cons p t ih =>
      obtain ⟨k₀, v₀⟩ := p
      by_cases h0 : k₀ = k
      · subst h0
        by_cases hk : k₀ = k' <;> simp [hdSet, hdGet, hk]
      · by_cases hk : k₀ = k'
        · subst hk
          have : ¬ k = k₀ := fun he => h0 he.symm
          simp [hdSet, hdGet, h0, this]
        · simp [hdSet, hdGet, h0, hk, ih]

theorem hdGet_copyHeaders (L : Header) (init : Header) (k : String) :
    hdGet (copyHeaders init L) k = (hdGet L.reverse k).or (hdGet init k) := by
  induction L generalizing init with
  | nil => simp [copyHeaders, hdGet]
  | cons p t ih =>
      obtain ⟨k₀, v₀⟩ := p
      have hstep : copyHeaders init ((k₀, v₀) :: t) = copyHeaders (hdSet init k₀ v₀) t := rfl
      rw [hstep, ih, List.reverse_cons, hdGet_append, hdGet_hdSet]
      by_cases h : k₀ = k
      · subst h
        cases hdGet t.reverse k₀ <;> simp [hdGet, Option.or]
      · have h' : ¬ k₀ = k := h
        cases hdGet t.reverse k <;> simp [hdGet, h', Option.or]

theorem hdGet_eq_none_iff (h : Header) (k : String) :
    hdGet h k = none ↔ k ∉ h.map Prod.fst := by
  induction h with
  | nil => simp [hdGet]
  | cons p t ih =>
      obtain ⟨k₀, v₀⟩ := p
      by_cases e : k₀ = k
      · simp [hdGet, e]
      · simp [hdGet, e, ih]
        exact fun _ h => e h.symm

theorem hdGet_reverse_of_nodup (h : Header) (hn : (h.map Prod.fst).Nodup) (k : String) :
    hdGet h.reverse k = hdGet h k := by
  induction h with
  | nil => rfl
  | cons p t ih =>
      obtain ⟨k₀, v₀⟩ := p
      simp only [List.map_cons, List.nodup_cons] at hn
      obtain ⟨hk₀, hnt⟩ := hn
      rw [List.reverse_cons, hdGet_append, ih hnt]
      by_cases e : k₀ = k
      · subst e
        have hnone : hdGet t k₀ = none := (hdGet_eq_none_iff t k₀).mpr hk₀
        simp [hdGet, hnone, Option.or]
      · cases hx : hdGet t k <;> simp [hdGet, e, hx, Option.or]

/-! ### Trimmer lemmas -/

theorem trim_game_ok {M : Type} (lib : PgnLib M) (g tg : Game M)
    (ht : trim_game lib g = .ok tg) :
    tg.headers = copyHeaders defaultHeaders g.headers ∧
    tg.moves = g.moves.take MAX_PLIES := by
  unfold trim_game at ht
  split at ht
  · cases ht
  · split at ht
    · cases ht
    · cases ht
      exact ⟨rfl, rfl⟩

theorem trim_game_eq_ok {M : Type} (lib : PgnLib M) (g : Game M) (f : String)
    (hf : hdGet g.headers "FEN" = some f) (hok : lib.fenOk f = true) :
    trim_game lib g =
      .ok ⟨copyHeaders defaultHeaders g.headers, g.moves.take MAX_PLIES⟩ := by
  unfold trim_game
  rw [hf]
  simp [hok]

theorem hdGet_trim {M : Type} (lib : PgnLib M) (g tg : Game M)
    (hwf : WFGame g) (ht : trim_game lib g = .ok tg) (k : String) :
    hdGet tg.headers k = (hdGet g.headers k).or (hdGet defaultHeaders k) := by
  rw [(trim_game_ok lib g tg ht).1, hdGet_copyHeaders, hdGet_reverse_of_nodup _ hwf]

theorem trim_fen {M : Type} (lib : PgnLib M) (g tg : Game M)
    (hwf : WFGame g) (ht : trim_game lib g = .ok tg) :
    hdGet tg.headers "FEN" = hdGet g.headers "FEN" := by
  rw [hdGet_trim lib g tg hwf ht "FEN"]
  have hd : hdGet defaultHeaders "FEN" = none := rfl
  rw [hd]
  cases hdGet g.headers "FEN" <;> rfl

/-! ### Validator lemmas -/

theorem setup_clause_iff (h : Header) :
    hdGet h "SetUp" = some "1" ↔ hdGetD h "SetUp" "" = "1" := by
  unfold hdGetD
  cases hx : hdGet h "SetUp" <;> simp

theorem result_clause_iff (h : Header) :
    hdGet h "Result" ∈ [some "1-0", some "0-1", some "1/2-1/2"] ↔
      hdGetD h "Result" "" ∈ ["1-0", "0-1", "1/2-1/2"] := by
  unfold hdGetD
  cases hx : hdGet h "Result" <;> simp

theorem speeds_lower :
    SPEEDS.map pyLower =
      ["blitz", "rapid", "classical", "bullet", "ultrabullet", "correspondence"] := by
  rfl

theorem good_iff_spec {M : Type} (g : Game M) :
    is_good_game g = true ↔ isEligibleSpec g := by
  unfold is_good_game isEligibleSpec
  constructor
  · intro h
    by_cases h1 : pyLower (hdGetD g.headers "Variant" "") = "chess960"
    swap
    · simp [h1] at h
    by_cases h2 : ¬ hdGet g.headers "SetUp" = some "1" ∨ hdGetD g.headers "FEN" "" = ""
    · simp [h1, h2] at h
    by_cases h3 : pyLower (hdGetD g.headers "Speed" "") ∈ SPEEDS.map pyLower
    swap
    · simp [h1, h2, h3] at h
    push_neg at h2
    cases hw : pyInt (hdGetD g.headers "WhiteElo" "0") with
    | none => simp [h1, h2.1, h2.2, h3, hw] at h
    | some wr =>
        cases hb : pyInt (hdGetD g.headers "BlackElo" "0") with
        | none => simp [h1, h2.1, h2.2, h3, hw, hb] at h
        | some br =>
            by_cases h4 : wr < MIN_RATING ∨ br < MIN_RATING
            · simp [h1, h2.1, h2.2, h3, hw, hb, h4] at h
            by_cases h5 : hdGet g.headers "Result" ∈ [some "1-0", some "0-1", some "1/2-1/2"]
            swap
            · simp [h1, h2.1, h2.2, h3, hw, hb, h4, h5] at h
            push_neg at h4
            refine ⟨h1, (setup_clause_iff g.headers).mp h2.1, h2.2, ?_,
              ⟨wr, rfl, h4.1⟩, ⟨br, rfl, h4.2⟩, (result_clause_iff g.headers).mp h5⟩
            rw [← speeds_lower]
            exact h3
  · rintro ⟨h1, h2, h3, h4, ⟨w, hw, hwr⟩, ⟨b, hb, hbr⟩, h7⟩
    have h2' := (setup_clause_iff g.headers).mpr h2
    have h4' : pyLower (hdGetD g.headers "Speed" "") ∈ SPEEDS.map pyLower := by
      rw [speeds_lower]; exact h4
    have h7' := (result_clause_iff g.headers).mpr h7
    have hno : ¬ (w < MIN_RATING ∨ b < MIN_RATING) := by
      push_neg
      exact ⟨hwr, hbr⟩
    simp [h1, h2', h3, h4', hw, hb, hno, h7']

theorem eligible_fen {M : Type} (g : Game M) (h : is_good_game g = true) :
    hdGet g.headers "FEN" = some (fenOf g) ∧ fenOf g ≠ "" := by
  have hs := (good_iff_spec g).mp h
  have h3 := hs.2.2.1
  unfold fenOf hdGetD
  unfold hdGetD at h3
  cases hx : hdGet g.headers "FEN" with
  | none => rw [hx] at h3; simp at h3
  | some v => rw [hx] at h3; exact ⟨rfl, h3⟩

/-! ### Grouping-map lemmas -/

theorem lookupGroup_gbAdd {G : Type} (gb : List (String × List G)) (f f₀ : String) (g : G) :
    lookupGroup (gbAdd gb f g) f₀ =
      if f = f₀ then lookupGroup gb f₀ ++ [g] else lookupGroup gb f₀ := by
  induction gb with
  | nil => by_cases h : f = f₀ <;> simp [gbAdd, lookupGroup, h]
  | cons p t ih =>
      obtain ⟨f', arr⟩ := p
      by_cases h1 : f' = f
      · subst h1
        by_cases h2 : f' = f₀ <;> simp [gbAdd, lookupGroup, h2]
      · by_cases h2 : f' = f₀
        · subst h2
          have : ¬ f = f' := fun he => h1 he.symm
          simp [gbAdd, lookupGroup, h1, this]
        · simp [gbAdd, lookupGroup, h1, h2, ih]

theorem gbAdd_keys {G : Type} (gb : List (String × List G)) (f : String) (g : G) :
    (gbAdd gb f g).map Prod.fst =
      if f ∈ gb.map Prod.fst then gb.map Prod.fst else gb.map Prod.fst ++ [f] := by
  induction gb with
  | nil => simp [gbAdd]
  | cons p t ih =>
      obtain ⟨f', arr⟩ := p
      by_cases h1 : f' = f
      · subst h1
        simp [gbAdd]
      · have h1' : ¬ f = f' := fun he => h1 he.symm
        by_cases h2 : f ∈ t.map Prod.fst <;> simp [gbAdd, h1, h1', h2, ih]

theorem mem_lookupGroup_mem {G : Type} (gb : List (String × List G)) (f : String) (x : G)
    (hx : x ∈ lookupGroup gb f) : (f, lookupGroup gb f) ∈ gb := by
  induction gb with
  | nil => simp [lookupGroup] at hx
  | cons p t ih =>
      obtain ⟨f', arr⟩ := p
      by_cases h : f' = f
      · subst h
        simp [lookupGroup]
      · simp [lookupGroup, h] at hx ⊢
        exact Or.inr (ih hx)

theorem lookup_of_mem {G : Type} (gb : List (String × List G)) (f : String) (arr : List G)
    (hn : (gb.map Prod.fst).Nodup) (hmem : (f, arr) ∈ gb) : lookupGroup gb f = arr := by
  induction gb with
  | nil => simp at hmem
  | cons p t ih =>
      obtain ⟨f', arr'⟩ := p
      simp only [List.map_cons, List.nodup_cons] at hn
      rcases List.mem_cons.mp hmem with he | ht
      · injection he with h1 h2
        subst h1; subst h2
        simp [lookupGroup]
      · have hf : f ∈ t.map Prod.fst := List.mem_map.mpr ⟨(f, arr), ht, rfl⟩
        have hne : ¬ f' = f := fun he => hn.1 (he ▸ hf)
        simp [lookupGroup, hne]
        exact ih hn.2 ht

theorem gbAdd_inv {M : Type} (gb : List (String × List (Game M))) (f : String) (tg : Game M)
    (hinv : GBInv gb) (hfen : hdGet tg.headers "FEN" = some f) : GBInv (gbAdd gb f tg) := by
  obtain ⟨hnd, hval⟩ := hinv
  constructor
  · rw [gbAdd_keys]
    by_cases h : f ∈ gb.map Prod.fst
    · simp [h, hnd]
    · simp [h, List.nodup_append, hnd]
  · intro p hp x hx
    induction gb with
    | nil =>
        simp [gbAdd] at hp
        subst hp
        simp at hx
        subst hx
        exact hfen
    | cons q t ih =>
        obtain ⟨f', arr⟩ := q
        by_cases h1 : f' = f
        · subst h1
          simp only [gbAdd, if_pos rfl] at hp
          rcases List.mem_cons.mp hp with he | ht
          · subst he
            rcases List.mem_append.mp hx with hxa | hxb
            · exact hval (f', arr) (List.mem_cons_self ..) x hxa
            · simp at hxb
              subst hxb
              exact hfen
          · exact hval p (List.mem_cons_of_mem _ ht) x hx
        · simp only [gbAdd, if_neg h1] at hp
          rcases List.mem_cons.mp hp with he | ht
          · subst he
            exact hval (f', arr) (List.mem_cons_self ..) x hx
          · refine ih ?_ ?_ ht
            · simp only [List.map_cons, List.nodup_cons] at hnd
              exact hnd.2
            · intro q hq y hy
              exact hval q (List.mem_cons_of_mem _ hq) y hy

/-! ### Per-game step lemmas -/

theorem pg_skip {M : Type} [DecidableEq M] (lib : PgnLib M) (st : PState M) (g : Game M)
    (h : is_good_game g = false) : processGame lib st g = .ok st := by
  unfold processGame
  simp [h]

theorem pg_sanerr {M : Type} [DecidableEq M] (lib : PgnLib M) (st : PState M) (g : Game M)
    (e : String) (h : is_good_game g = true) (hs : lib.san (fenOf g) g.moves = .error e) :
    processGame lib st g = .error e := by
  unfold processGame
  simp [h, hs]

theorem pg_dup {M : Type} [DecidableEq M] (lib : PgnLib M) (st : PState M) (g : Game M)
    (s : String) (h : is_good_game g = true) (hs : lib.san (fenOf g) g.moves = .ok s)
    (hseen : (fenOf g, s) ∈ st.seen) : processGame lib st g = .ok st := by
  unfold processGame
  simp [h, hs, hseen]

theorem pg_store {M : Type} [DecidableEq M] (lib : PgnLib M) (st : PState M) (g : Game M)
    (s : String) (tg : Game M) (h : is_good_game g = true)
    (hs : lib.san (fenOf g) g.moves = .ok s) (hseen : (fenOf g, s) ∉ st.seen)
    (ht : trim_game lib g = .ok tg) :
    processGame lib st g = .ok ⟨(fenOf g, s) :: st.seen, gbAdd st.gb (fenOf g) tg⟩ := by
  unfold processGame
  simp [h, hs, hseen, ht]

theorem pg_ok_elim {M : Type} [DecidableEq M] (lib : PgnLib M) (st st' : PState M) (g : Game M)
    (h : processGame lib st g = .ok st') :
    st' = st ∨
      ∃ s tg, is_good_game g = true ∧ lib.san (fenOf g) g.moves = .ok s ∧
        (fenOf g, s) ∉ st.seen ∧ trim_game lib g = .ok tg ∧
        st' = ⟨(fenOf g, s) :: st.seen, gbAdd st.gb (fenOf g) tg⟩ := by
  unfold processGame at h
  split at h
  · cases h
    exact Or.inl rfl
  next hg =>
    split at h
    next e heq => cases h
    next s heq =>
      split at h
      next hseen =>
        cases h
        exact Or.inl rfl
      next hseen =>
        split at h
        next e heq2 => cases h
        next tg heq2 =>
          cases h
          exact Or.inr ⟨s, tg, by simpa using hg, heq, hseen, heq2, rfl⟩

theorem pg_seen_mono {M : Type} [DecidableEq M] (lib : PgnLib M) (st st' : PState M)
    (g : Game M) (h : processGame lib st g = .ok st') : st.seen ⊆ st'.seen := by
  rcases pg_ok_elim lib st st' g h with he | ⟨s, tg, _, _, _, _, he⟩
  · subst he; exact fun x hx => hx
  · subst he; exact fun x hx => List.mem_cons_of_mem _ hx

theorem pg_group_mono {M : Type} [DecidableEq M] (lib : PgnLib M) (st st' : PState M)
    (g : Game M) (h : processGame lib st g = .ok st') (f : String) (x : Game M)
    (hx : x ∈ lookupGroup st.gb f) : x ∈ lookupGroup st'.gb f := by
  rcases pg_ok_elim lib st st' g h with he | ⟨s, tg, _, _, _, _, he⟩
  · subst he; exact hx
  · subst he
    show x ∈ lookupGroup (gbAdd st.gb (fenOf g) tg) f
    rw [lookupGroup_gbAdd]
    by_cases hf : fenOf g = f
    · simp [hf]
      exact Or.inl hx
    · simp [hf]
      exact hx

/-! ### Stream and run composition lemmas -/

theorem pl_cons_elim {M : Type} [DecidableEq M] (lib : PgnLib M) (st st'' : PState M)
    (g : Game M) (gs : List (Game M)) (h : processList lib st (g :: gs) = .ok st'') :
    ∃ st', processGame lib st g = .ok st' ∧ processList lib st' gs = .ok st'' := by
  unfold processList at h
  cases hg : processGame lib st g with
  | error e => rw [hg] at h; cases h
  | ok st' => rw [hg] at h; exact ⟨st', rfl, h⟩

theorem pl_seen_mono {M : Type} [DecidableEq M] (lib : PgnLib M) (st st' : PState M)
    (L : List (Game M)) (h : processList lib st L = .ok st') : st.seen ⊆ st'.seen := by
  induction L generalizing st with
  | nil => cases h; exact fun x hx => hx
  | cons g gs ih =>
      obtain ⟨st₁, h1, h2⟩ := pl_cons_elim lib st st' g gs h
      exact fun x hx => ih st₁ h2 (pg_seen_mono lib st st₁ g h1 hx)

theorem pl_group_mono {M : Type} [DecidableEq M] (lib : PgnLib M) (st st' : PState M)
    (L : List (Game M)) (h : processList lib st L = .ok st') (f : String) (x : Game M)
    (hx : x ∈ lookupGroup st.gb f) : x ∈ lookupGroup st'.gb f := by
  induction L generalizing st with
  | nil => cases h; exact hx
  | cons g gs ih =>
      obtain ⟨st₁, h1, h2⟩ := pl_cons_elim lib st st' g gs h
      exact ih st₁ h2 (pg_group_mono lib st st₁ g h1 f x hx)

theorem rb_cons_ok_elim {M : Type} [DecidableEq M] (lib : PgnLib M) (st st'' : PState M)
    (gs : List (Game M)) (rest : List (Except String (List (Game M))))
    (h : runBots lib st (.ok gs :: rest) = .ok st'') :
    ∃ st', processList lib st gs = .ok st' ∧ runBots lib st' rest = .ok st'' := by
  unfold runBots at h
  cases hg : processList lib st gs with
  | error e => rw [hg] at h; cases h
  | ok st' => rw [hg] at h; exact ⟨st', rfl, h⟩

theorem rb_seen_mono {M : Type} [DecidableEq M] (lib : PgnLib M) (st st' : PState M)
    (streams : List (Except String (List (Game M))))
    (h : runBots lib st streams = .ok st') : st.seen ⊆ st'.seen := by
  induction streams generalizing st with
  | nil => cases h; exact fun x hx => hx
  | cons s rest ih =>
      cases s with
      | error e => exact ih st h
      | ok gs =>
          obtain ⟨st₁, h1, h2⟩ := rb_cons_ok_elim lib st st' gs rest h
          exact fun x hx => ih st₁ h2 (pl_seen_mono lib st st₁ gs h1 hx)

theorem rb_group_mono {M : Type} [DecidableEq M] (lib : PgnLib M) (st st' : PState M)
    (streams : List (Except String (List (Game M))))
    (h : runBots lib st streams = .ok st') (f : String) (x : Game M)
    (hx : x ∈ lookupGroup st.gb f) : x ∈ lookupGroup st'.gb f := by
  induction streams generalizing st with
  | nil => cases h; exact hx
  | cons s rest ih =>
      cases s with
      | error e => exact ih st h hx
      | ok gs =>
          obtain ⟨st₁, h1, h2⟩ := rb_cons_ok_elim lib st st' gs rest h
          exact ih st₁ h2 (pl_group_mono lib st st₁ gs h1 f x hx)

theorem pl_cons_ok {M : Type} [DecidableEq M] (lib : PgnLib M) (st st' : PState M)
    (g : Game M) (X : List (Game M)) (h : processGame lib st g = .ok st') :
    processList lib st (g :: X) = processList lib st' X := by
  show (match processGame lib st g with
        | Except.error e => Except.error e
        | Except.ok s => processList lib s X) = processList lib st' X
  rw [h]

theorem rb_cons_ok {M : Type} [DecidableEq M] (lib : PgnLib M) (st st' : PState M)
    (gs : List (Game M)) (rest : List (Except String (List (Game M))))
    (h : processList lib st gs = .ok st') :
    runBots lib st (.ok gs :: rest) = runBots lib st' rest := by
  show (match processList lib st gs with
        | Except.error e => Except.error e
        | Except.ok s => runBots lib s rest) = runBots lib st' rest
  rw [h]

theorem pl_append_ok {M : Type} [DecidableEq M] (lib : PgnLib M) (st st₁ : PState M)
    (A B : List (Game M)) (h : processList lib st A = .ok st₁) :
    processList lib st (A ++ B) = processList lib st₁ B := by
  induction A generalizing st with
  | nil => cases h; rfl
  | cons g gs ih =>
      obtain ⟨st', h1, h2⟩ := pl_cons_elim lib st st₁ g gs h
      rw [List.cons_append, pl_cons_ok lib st st' g (gs ++ B) h1]
      exact ih st' h2

theorem rb_append_ok {M : Type} [DecidableEq M] (lib : PgnLib M) (st st₁ : PState M)
    (A B : List (Except String (List (Game M)))) (h : runBots lib st A = .ok st₁) :
    runBots lib st (A ++ B) = runBots lib st₁ B := by
  induction A generalizing st with
  | nil => cases h; rfl
  | cons s rest ih =>
      cases s with
      | error e => exact ih st h
      | ok gs =>
          obtain ⟨st', h1, h2⟩ := rb_cons_ok_elim lib st st₁ gs rest h
          rw [List.cons_append, rb_cons_ok lib st st' gs (rest ++ B) h1]
          exact ih st' h2

/-! ### Invariant preservation -/

theorem pg_inv {M : Type} [DecidableEq M] (lib : PgnLib M) (st st' : PState M) (g : Game M)
    (hwf : WFGame g) (hinv : GBInv st.gb) (h : processGame lib st g = .ok st') :
    GBInv st'.gb := by
  rcases pg_ok_elim lib st st' g h with he | ⟨s, tg, hg, hs, hseen, ht, he⟩
  · subst he; exact hinv
  · subst he
    refine gbAdd_inv st.gb (fenOf g) tg hinv ?_
    rw [trim_fen lib g tg hwf ht]
    exact (eligible_fen g hg).1

theorem pl_inv {M : Type} [DecidableEq M] (lib : PgnLib M) (st st' : PState M)
    (L : List (Game M)) (hwf : ∀ g ∈ L, WFGame g) (hinv : GBInv st.gb)
    (h : processList lib st L = .ok st') : GBInv st'.gb := by
  induction L generalizing st with
  | nil => cases h; exact hinv
  | cons g gs ih =>
      obtain ⟨st₁, h1, h2⟩ := pl_cons_elim lib st st' g gs h
      exact ih st₁ (fun x hx => hwf x (List.mem_cons_of_mem _ hx))
        (pg_inv lib st st₁ g (hwf g (List.mem_cons_self ..)) hinv h1) h2

theorem rb_inv {M : Type} [DecidableEq M] (lib : PgnLib M) (st st' : PState M)
    (streams : List (Except String (List (Game M)))) (hwf : WFStreams streams)
    (hinv : GBInv st.gb) (h : runBots lib st streams = .ok st') : GBInv st'.gb := by
  induction streams generalizing st with
  | nil => cases h; exact hinv
  | cons s rest ih =>
      have hwfrest : WFStreams rest := fun x hx => hwf x (List.mem_cons_of_mem _ hx)
      cases s with
      | error e => exact ih st hwfrest hinv h
      | ok gs =>
          obtain ⟨st₁, h1, h2⟩ := rb_cons_ok_elim lib st st' gs rest h
          refine ih st₁ hwfrest ?_ h2
          exact pl_inv lib st st₁ gs
            (fun x hx => hwf (.ok gs) (List.mem_cons_self ..) x hx) hinv h1

/-! ### Aggregation lemmas -/

theorem finalize_eq_spec {M : Type} (gb : List (String × List (Game M))) :
    finalize gb = finalizeSpec gb := by
  suffices h : ∀ acc, gb.foldl
      (fun acc p => if MIN_FEN_GAMES ≤ p.2.length then acc ++ p.2 else acc) acc =
      acc ++ finalizeSpec gb by
    have := h []
    simpa [finalize] using this
  induction gb with
  | nil => intro acc; simp [finalizeSpec]
  | cons p t ih =>
      intro acc
      by_cases hp : MIN_FEN_GAMES ≤ p.2.length
      · simp only [List.foldl_cons, if_pos hp]
        rw [ih (acc ++ p.2)]
        simp [finalizeSpec, List.filter_cons, hp, List.append_assoc]
      · simp only [List.foldl_cons, if_neg hp]
        rw [ih acc]
        simp [finalizeSpec, List.filter_cons, hp]

theorem mem_finalizeSpec {M : Type} (gb : List (String × List (Game M))) (x : Game M) :
    x ∈ finalizeSpec gb ↔ ∃ p ∈ gb, MIN_FEN_GAMES ≤ p.2.length ∧ x ∈ p.2 := by
  unfold finalizeSpec
  simp only [List.mem_flatten, List.mem_map, List.mem_filter]
  constructor
  · rintro ⟨l, ⟨p, ⟨hp, hlen⟩, rfl⟩, hx⟩
    exact ⟨p, hp, by simpa using hlen, hx⟩
  · rintro ⟨p, hp, hlen, hx⟩
    exact ⟨p.2, ⟨p, ⟨hp, by simpa using hlen⟩, rfl⟩, hx⟩

theorem pg_trimerr {M : Type} [DecidableEq M] (lib : PgnLib M) (st : PState M) (g : Game M)
    (s e : String) (h : is_good_game g = true) (hs : lib.san (fenOf g) g.moves = .ok s)
    (hseen : (fenOf g, s) ∉ st.seen) (ht : trim_game lib g = .error e) :
    processGame lib st g = .error e := by
  unfold processGame
  simp [h, hs, hseen, ht]

/-! ### The claims -/

/-- C4: a game is judged eligible iff all five clauses hold — Variant
case-insensitively `"chess960"`, `SetUp = "1"` with a non-empty FEN, Speed
case-insensitively in the fixed allow-list, both Elo headers parsing as
integers `≥ 2375`, and Result one of the three outcomes; in particular a
missing, malformed or out-of-range header makes the predicate false. -/
theorem c4_eligibility_iff {M : Type} (g : Game M) :
    is_good_game g = true ↔ isEligibleSpec g :=
  good_iff_spec g

/-- C5: the eligibility predicate never raises on malformed input — if
either rating header fails to parse as an integer (e.g. `"unrated"`), the
predicate returns `false` (it is a total `Bool` function; the `ValueError`
is caught inside it). -/
theorem c5_malformed_rating_false {M : Type} (g : Game M)
    (h : pyInt (hdGetD g.headers "WhiteElo" "0") = none ∨
         pyInt (hdGetD g.headers "BlackElo" "0") = none) :
    is_good_game g = false := by
  by_cases h1 : ¬ pyLower (hdGetD g.headers "Variant" "") = "chess960"
  · simp [is_good_game, h1]
  · by_cases h2 : ¬ hdGet g.headers "SetUp" = some "1" ∨ hdGetD g.headers "FEN" "" = ""
    · simp [is_good_game, h1, h2]
    · by_cases h3 : ¬ pyLower (hdGetD g.headers "Speed" "") ∈ SPEEDS.map pyLower
      · simp [is_good_game, h1, h2, h3]
      · rcases h with h | h
        · cases hb : pyInt (hdGetD g.headers "BlackElo" "0") <;>
            simp [is_good_game, h1, h2, h3, h, hb]
        · cases hw : pyInt (hdGetD g.headers "WhiteElo" "0") <;>
            simp [is_good_game, h1, h2, h3, h, hw]

/-- Witness for C5: the concrete scenario `WhiteElo = "unrated"` is judged
ineligible, with no error. -/
theorem c5_witness :
    pyInt (hdGetD gUnrated.headers "WhiteElo" "0") = none ∧
      is_good_game gUnrated = false :=
  ⟨by decide, c5_malformed_rating_false gUnrated (Or.inl (by decide))⟩

/-- C6: for every accepted game, the trimmed move list is exactly the
`min(len(moves), 24)`-long initial segment of the original mainline. -/
theorem c6_trim_moves {M : Type} (lib : PgnLib M) (g tg : Game M)
    (h : trim_game lib g = .ok tg) :
    tg.moves = g.moves.take MAX_PLIES ∧
    tg.moves.length = min g.moves.length MAX_PLIES ∧
    tg.moves <+: g.moves := by
  obtain ⟨hh, hm⟩ := trim_game_ok lib g tg h
  refine ⟨hm, ?_, ?_⟩
  · rw [hm, List.length_take, Nat.min_comm]
  · rw [hm]
    exact ⟨g.moves.drop MAX_PLIES, List.take_append_drop _ _⟩

/-- Witness for C6: a game with 40 recorded plies trims to exactly 24. -/
theorem c6_witness :
    trim_game toyLib g40 = .ok tg40 ∧ tg40.moves.length = min g40.moves.length MAX_PLIES :=
  ⟨rfl, (c6_trim_moves toyLib g40 tg40 rfl).2.1⟩

/-- C7: trimming changes nothing but the move list — the trimmed game's
header mapping agrees with the original's at every key, in particular at
`FEN`.  Hypotheses record what the external parser guarantees for every
game the pipeline trims: header keys are unique (a dict) and the Seven Tag
Roster keys are always populated by `chess.pgn.read_game` (a fresh game's
default headers are exactly those seven, so copying over them
is invisible). -/
theorem c7_headers_preserved {M : Type} (lib : PgnLib M) (g tg : Game M)
    (hwf : WFGame g)
    (hroster : ∀ k ∈ defaultHeaders.map Prod.fst, (hdGet g.headers k).isSome = true)
    (h : trim_game lib g = .ok tg) :
    (∀ k, hdGet tg.headers k = hdGet g.headers k) ∧
    hdGet tg.headers "FEN" = hdGet g.headers "FEN" := by
  have hall : ∀ k, hdGet tg.headers k = hdGet g.headers k := by
    intro k
    rw [hdGet_trim lib g tg hwf h k]
    cases hg : hdGet g.headers k with
    | some v => rfl
    | none =>
        cases hd : hdGet defaultHeaders k with
        | none => rfl
        | some v =>
            have hk : k ∈ defaultHeaders.map Prod.fst := by
              by_contra hc
              rw [(hdGet_eq_none_iff defaultHeaders k).mpr hc] at hd
              cases hd
            have := hroster k hk
            rw [hg] at this
            cases this
  exact ⟨hall, hall "FEN"⟩

/-- Witness for C7: the 40-ply game's trim has identical headers; in
particular its FEN is unchanged. -/
theorem c7_witness : hdGet tg40.headers "FEN" = hdGet g40.headers "FEN" :=
  (c7_headers_preserved toyLib g40 tg40 (by unfold WFGame; decide) (by decide) rfl).2

/-- C1: a FEN's games appear in the final dataset iff the number of admitted
games with that FEN (the size of its group) is at least `MIN_FEN_GAMES = 3`;
groups of size 1 or 2 contribute nothing — no partial inclusion. -/
theorem c1_group_threshold {M : Type} [DecidableEq M] (lib : PgnLib M)
    (streams : List (Except String (List (Game M)))) (st : PState M) (f : String)
    (x : Game M)
    (hrun : runBots lib pipeInit streams = .ok st)
    (hwf : WFStreams streams)
    (hx : x ∈ lookupGroup st.gb f) :
    x ∈ finalize st.gb ↔ MIN_FEN_GAMES ≤ (lookupGroup st.gb f).length := by
  have hinv : GBInv st.gb :=
    rb_inv lib pipeInit st streams hwf ⟨by simp [pipeInit], by simp [pipeInit]⟩ hrun
  rw [finalize_eq_spec, mem_finalizeSpec]
  constructor
  · rintro ⟨p, hp, hlen, hxp⟩
    have h1 : hdGet x.headers "FEN" = some p.1 := hinv.2 p hp x hxp
    have h2 : (f, lookupGroup st.gb f) ∈ st.gb := mem_lookupGroup_mem st.gb f x hx
    have h3 : hdGet x.headers "FEN" = some f := hinv.2 _ h2 x hx
    have hpf : p.1 = f := by
      rw [h1] at h3
      injection h3
    have h4 : lookupGroup st.gb f = p.2 := by
      refine lookup_of_mem st.gb f p.2 hinv.1 ?_
      rw [← hpf]
      exact hp
    rw [h4]
    exact hlen
  · intro hlen
    exact ⟨(f, lookupGroup st.gb f), mem_lookupGroup_mem st.gb f x hx, hlen, hx⟩

/-- Witness for C1: in a run with three admitted `"f1"` games, an `"f1"`
game is in the final dataset iff the group has at least 3 entries. -/
theorem c1_witness :
    runBots toyLib pipeInit c1Streams = .ok c1St ∧
    mkG "f1" ["a"] ∈ lookupGroup c1St.gb "f1" ∧
    (mkG "f1" ["a"] ∈ finalize c1St.gb ↔
      MIN_FEN_GAMES ≤ (lookupGroup c1St.gb "f1").length) := by
  refine ⟨rfl, by decide, ?_⟩
  refine c1_group_threshold toyLib c1Streams c1St "f1" (mkG "f1" ["a"]) rfl ?_ (by decide)
  simp only [WFStreams, WFGame]
  decide

/-- C2: the dedup key is the pair (FEN header, rendered notation of the
FULL, untrimmed mainline); two eligible games with the same FEN that agree
on their first 24 plies but whose full lines render differently are both
admitted — neither is rejected as a duplicate — and are stored with
identical trimmed move lists. -/
theorem c2_dedup_full_line {M : Type} [DecidableEq M] (lib : PgnLib M) (st : PState M)
    (g1 g2 : Game M) (s1 s2 : String)
    (h1 : is_good_game g1 = true) (h2 : is_good_game g2 = true)
    (hf : fenOf g2 = fenOf g1)
    (hs1 : lib.san (fenOf g1) g1.moves = .ok s1)
    (hs2 : lib.san (fenOf g2) g2.moves = .ok s2)
    (hne : s1 ≠ s2)
    (hu1 : (fenOf g1, s1) ∉ st.seen)
    (hu2 : (fenOf g1, s2) ∉ st.seen)
    (hpre : g1.moves.take MAX_PLIES = g2.moves.take MAX_PLIES)
    (hok : lib.fenOk (fenOf g1) = true) :
    ∃ t1 t2 st', trim_game lib g1 = .ok t1 ∧ trim_game lib g2 = .ok t2 ∧
      processList lib st [g1, g2] = .ok st' ∧
      st'.seen = (fenOf g2, s2) :: (fenOf g1, s1) :: st.seen ∧
      lookupGroup st'.gb (fenOf g1) = lookupGroup st.gb (fenOf g1) ++ [t1, t2] ∧
      t1.moves = t2.moves := by
  obtain ⟨hfen1, -⟩ := eligible_fen g1 h1
  obtain ⟨hfen2, -⟩ := eligible_fen g2 h2
  have hok2 : lib.fenOk (fenOf g2) = true := by rw [hf]; exact hok
  have ht1 := trim_game_eq_ok lib g1 (fenOf g1) hfen1 hok
  have ht2 := trim_game_eq_ok lib g2 (fenOf g2) hfen2 hok2
  have hp1 := pg_store lib st g1 s1 _ h1 hs1 hu1 ht1
  have hu2' : (fenOf g2, s2) ∉
      ((fenOf g1, s1) :: st.seen : List (String × String)) := by
    rw [hf]
    intro hc
    rcases List.mem_cons.mp hc with he | hm
    · injection he with _ hss
      exact hne hss.symm
    · exact hu2 hm
  have hp2 := pg_store lib ⟨(fenOf g1, s1) :: st.seen, gbAdd st.gb (fenOf g1)
    ⟨copyHeaders defaultHeaders g1.headers, g1.moves.take MAX_PLIES⟩⟩ g2 s2 _ h2 hs2 hu2' ht2
  refine ⟨⟨copyHeaders defaultHeaders g1.headers, g1.moves.take MAX_PLIES⟩,
    ⟨copyHeaders defaultHeaders g2.headers, g2.moves.take MAX_PLIES⟩,
    ⟨(fenOf g2, s2) :: (fenOf g1, s1) :: st.seen,
      gbAdd (gbAdd st.gb (fenOf g1)
          ⟨copyHeaders defaultHeaders g1.headers, g1.moves.take MAX_PLIES⟩)
        (fenOf g2) ⟨copyHeaders defaultHeaders g2.headers, g2.moves.take MAX_PLIES⟩⟩,
    ht1, ht2, ?_, rfl, ?_, hpre⟩
  · rw [pl_cons_ok lib st _ g1 [g2] hp1, pl_cons_ok lib _ _ g2 [] hp2]
    rfl
  · rw [hf, lookupGroup_gbAdd, if_pos rfl, lookupGroup_gbAdd, if_pos rfl,
      List.append_assoc]
    rfl

/-- Witness for C2: two 25-ply games sharing their first 24 plies and
diverging at ply 25 are both stored, with equal trimmed content. -/
theorem c2_witness :
    ∃ t1 t2 st', trim_game toyLib c2g1 = .ok t1 ∧ trim_game toyLib c2g2 = .ok t2 ∧
      processList toyLib pipeInit [c2g1, c2g2] = .ok st' ∧
      st'.seen = (fenOf c2g2, String.intercalate " " c2g2.moves) ::
        (fenOf c2g1, String.intercalate " " c2g1.moves) :: (pipeInit : PState String).seen ∧
      lookupGroup st'.gb (fenOf c2g1) =
        lookupGroup (pipeInit : PState String).gb (fenOf c2g1) ++ [t1, t2] ∧
      t1.moves = t2.moves :=
  c2_dedup_full_line toyLib pipeInit c2g1 c2g2
    (String.intercalate " " c2g1.moves) (String.intercalate " " c2g2.moves)
    (by decide) (by decide) rfl rfl rfl (by decide) (by decide) (by decide)
    (by decide) rfl

/-- C3: games with an equal dedup key — at most one is retained, namely the
first encountered in processing order; once it is admitted its key stays in
the growing seen-set, so any later game with the same key anywhere in the
rest of the run leaves the state unchanged, while the first one's trimmed
copy stays in its FEN group. -/
theorem c3_first_wins {M : Type} [DecidableEq M] (lib : PgnLib M)
    (st st1 st2 : PState M) (g1 g2 : Game M) (k : String × String)
    (streams : List (Except String (List (Game M))))
    (h1 : is_good_game g1 = true) (hk1 : keyOf lib g1 = some k)
    (hnew : k ∉ st.seen)
    (hp1 : processGame lib st g1 = .ok st1)
    (hrun : runBots lib st1 streams = .ok st2)
    (h2 : is_good_game g2 = true) (hk2 : keyOf lib g2 = some k) :
    processGame lib st2 g2 = .ok st2 ∧
    st1.seen = k :: st.seen ∧
    st1.seen ⊆ st2.seen ∧
    ∃ t1, trim_game lib g1 = .ok t1 ∧
      t1 ∈ lookupGroup st1.gb (fenOf g1) ∧ t1 ∈ lookupGroup st2.gb (fenOf g1) := by
  obtain ⟨kf, ks⟩ := k
  have hs1 : lib.san (fenOf g1) g1.moves = .ok ks ∧ fenOf g1 = kf := by
    unfold keyOf at hk1
    cases hx : lib.san (fenOf g1) g1.moves with
    | error e => rw [hx] at hk1; cases hk1
    | ok s =>
        rw [hx] at hk1
        injection hk1 with hk1
        injection hk1 with ha hb
        exact ⟨by rw [hb], ha⟩
  have hs2 : lib.san (fenOf g2) g2.moves = .ok ks ∧ fenOf g2 = kf := by
    unfold keyOf at hk2
    cases hx : lib.san (fenOf g2) g2.moves with
    | error e => rw [hx] at hk2; cases hk2
    | ok s =>
        rw [hx] at hk2
        injection hk2 with hk2
        injection hk2 with ha hb
        exact ⟨by rw [hb], ha⟩
  have hnew' : (fenOf g1, ks) ∉ st.seen := by rw [hs1.2]; exact hnew
  cases ht : trim_game lib g1 with
  | error e =>
      rw [pg_trimerr lib st g1 ks e h1 hs1.1 hnew' ht] at hp1
      cases hp1
  | ok t1 =>
      rw [pg_store lib st g1 ks t1 h1 hs1.1 hnew' ht] at hp1
      injection hp1 with hp1
      subst hp1
      have hseen1 : ((fenOf g1, ks) : String × String) ∈
          ((fenOf g1, ks) :: st.seen : List (String × String)) :=
        List.mem_cons_self ..
      have hsub : ((fenOf g1, ks) :: st.seen : List (String × String)) ⊆ st2.seen :=
        rb_seen_mono lib _ st2 streams hrun
      have hmem2 : ((fenOf g2, ks) : String × String) ∈ st2.seen := by
        rw [hs2.2, ← hs1.2]
        exact hsub hseen1
      have ht1mem : t1 ∈ lookupGroup (gbAdd st.gb (fenOf g1) t1) (fenOf g1) := by
        rw [lookupGroup_gbAdd, if_pos rfl]
        exact List.mem_append_right _ (List.mem_singleton.mpr rfl)
      refine ⟨pg_dup lib st2 g2 ks h2 hs2.1 hmem2, by rw [hs1.2], hsub,
        t1, rfl, ht1mem, ?_⟩
      exact rb_group_mono lib _ st2 streams hrun (fenOf g1) t1 ht1mem

/-- Witness for C3: after admitting a game, re-encountering the same key
later in the run (after more processing) changes nothing. -/
theorem c3_witness :
    processGame toyLib c3st2 c3g = .ok c3st2 ∧
    c3st1.seen = ("f1", "a") :: (pipeInit : PState String).seen ∧
    c3st1.seen ⊆ c3st2.seen ∧
    ∃ t1, trim_game toyLib c3g = .ok t1 ∧
      t1 ∈ lookupGroup c3st1.gb (fenOf c3g) ∧ t1 ∈ lookupGroup c3st2.gb (fenOf c3g) :=
  c3_first_wins toyLib pipeInit c3st1 c3st2 c3g c3g ("f1", "a") c3Streams
    (by decide) rfl (by decide) rfl rfl (by decide) rfl

/-- C9: the final dataset is the concatenation of the surviving groups'
lists in the stored group order, where the grouping map lists FENs in
first-encounter order (a new FEN is appended at the end, an existing FEN
keeps its position) and each group's list in insertion order (a new game is
appended at the end of its group). -/
theorem c9_final_dataset {M : Type} [DecidableEq M] (lib : PgnLib M)
    (streams : List (Except String (List (Game M)))) (st : PState M)
    (hrun : runBots lib pipeInit streams = .ok st) :
    mainPipeline lib streams = .ok (finalizeSpec st.gb) ∧
    (∀ (gb : List (String × List (Game M))) (f : String) (tg : Game M),
        lookupGroup (gbAdd gb f tg) f = lookupGroup gb f ++ [tg]) ∧
    (∀ (gb : List (String × List (Game M))) (f : String) (tg : Game M),
        (gbAdd gb f tg).map Prod.fst =
          if f ∈ gb.map Prod.fst then gb.map Prod.fst
          else gb.map Prod.fst ++ [f]) := by
  refine ⟨?_, ?_, fun gb f tg => gbAdd_keys gb f tg⟩
  · unfold mainPipeline
    rw [hrun]
    show Except.ok (finalize st.gb) = Except.ok (finalizeSpec st.gb)
    rw [finalize_eq_spec]
  · intro gb f tg
    rw [lookupGroup_gbAdd, if_pos rfl]

/-- Witness for C9: the concrete run's output equals the filtered flattened
groups, and appending to an existing group appends at its end. -/
theorem c9_witness :
    mainPipeline toyLib c1Streams = .ok (finalizeSpec c1St.gb) ∧
    lookupGroup (gbAdd c1St.gb "f1" (mkG "f1" ["d"])) "f1" =
      lookupGroup c1St.gb "f1" ++ [mkG "f1" ["d"]] :=
  ⟨(c9_final_dataset toyLib c1Streams c1St rfl).1,
   (c9_final_dataset toyLib c1Streams c1St rfl).2.1 c1St.gb "f1" (mkG "f1" ["d"])⟩

/-- C10: in the driver, only retrieval failures are caught per account
(third conjunct); if an eligible game's full-mainline rendering raises
while computing the dedup key, the error propagates — the per-game step
yields the error before anything is admitted or trimmed (first conjunct)
and the entire run aborts with it (second conjunct). -/
theorem c10_run_abort {M : Type} [DecidableEq M] (lib : PgnLib M)
    (S1 S2 : List (Except String (List (Game M)))) (L1 L2 : List (Game M))
    (g : Game M) (st1 st2 : PState M) (e : String)
    (hS1 : runBots lib pipeInit S1 = .ok st1)
    (hL1 : processList lib st1 L1 = .ok st2)
    (hg : is_good_game g = true)
    (hsan : lib.san (fenOf g) g.moves = .error e) :
    processGame lib st2 g = .error e ∧
    mainPipeline lib (S1 ++ .ok (L1 ++ g :: L2) :: S2) = .error e ∧
    ∀ (st : PState M) (rest : List (Except String (List (Game M)))) (e' : String),
      runBots lib st (.error e' :: rest) = runBots lib st rest := by
  have hpg : processGame lib st2 g = .error e := pg_sanerr lib st2 g e hg hsan
  refine ⟨hpg, ?_, fun st rest e' => rfl⟩
  have hpl : processList lib st1 (L1 ++ g :: L2) = .error e := by
    rw [pl_append_ok lib st1 st2 L1 (g :: L2) hL1]
    show (match processGame lib st2 g with
          | Except.error e => Except.error e
          | Except.ok s => processList lib s L2) = Except.error e
    rw [hpg]
  have hrb : runBots lib st1 (.ok (L1 ++ g :: L2) :: S2) = .error e := by
    show (match processList lib st1 (L1 ++ g :: L2) with
          | Except.error e => Except.error e
          | Except.ok s => runBots lib s S2) = Except.error e
    rw [hpl]
  unfold mainPipeline
  rw [rb_append_ok lib pipeInit st1 S1 _ hS1, hrb]

/-- Witness for C10: a single eligible game whose mainline the library
rejects aborts the whole run with that error. -/
theorem c10_witness :
    processGame illLib pipeInit gIll = .error "IllegalMoveError" ∧
    mainPipeline illLib [Except.ok [gIll]] = .error "IllegalMoveError" :=
  ⟨(c10_run_abort illLib [] [] [] [] gIll pipeInit pipeInit "IllegalMoveError"
      rfl rfl (by decide) rfl).1,
   (c10_run_abort illLib [] [] [] [] gIll pipeInit pipeInit "IllegalMoveError"
      rfl rfl (by decide) rfl).2.1⟩

/-- C8 counterexample: the claim says a FEN/move inconsistency fails inside
the trimmer and that trimming never silently produces a corrupt trimmed
game from an inconsistent pairing.  Concretely: `illLib` deems `gIll`'s
mainline illegal from its FEN (rendering raises), yet `trim_game` succeeds
silently, returning the game with its (inconsistent) move list intact — the
trimmer applies no moves to any board and cannot fail on them. -/
theorem c8_counterexample :
    illLib.san (fenOf gIll) gIll.moves = .error "IllegalMoveError" ∧
    trim_game illLib gIll = .ok gIll ∧ gIll.moves = ["Qz9"] :=
  ⟨rfl, rfl, rfl⟩

/-- C8 (amended): the trimmer itself never applies a move, so it succeeds on
any game whose FEN header is present and parseable, whatever the moves (it
copies the 24-ply move prefix verbatim, first conjunct); the pipeline still
never stores a corrupt trimmed game from an inconsistent pairing, because
the dedup-key rendering — which happens strictly before trimming — raises
and the per-game step errors out (second conjunct). -/
theorem c8_amended_trim_no_validation {M : Type} [DecidableEq M] (lib : PgnLib M)
    (g : Game M) (f : String)
    (hf : hdGet g.headers "FEN" = some f) (hok : lib.fenOk f = true) :
    trim_game lib g =
      .ok ⟨copyHeaders defaultHeaders g.headers, g.moves.take MAX_PLIES⟩ ∧
    ∀ (st : PState M) (e : String), is_good_game g = true →
      lib.san (fenOf g) g.moves = .error e → processGame lib st g = .error e :=
  ⟨trim_game_eq_ok lib g f hf hok,
   fun st e hg hs => pg_sanerr lib st g e hg hs⟩

/-- Witness for C8 (amended): on the concrete inconsistent game the trimmer
succeeds while the pipeline's per-game step aborts with the rendering
error. -/
theorem c8_amended_witness :
    trim_game illLib gIll =
      .ok ⟨copyHeaders defaultHeaders gIll.headers, gIll.moves.take MAX_PLIES⟩ ∧
    processGame illLib pipeInit gIll = .error "IllegalMoveError" :=
  ⟨(c8_amended_trim_no_validation illLib gIll "fX" rfl rfl).1,
   (c8_amended_trim_no_validation illLib gIll "fX" rfl rfl).2 pipeInit
     "IllegalMoveError" (by decide) rfl⟩

end GFB
